import Mathlib

/-!
Verification of the content-extraction pipeline of `tkr_searxng`
(`tkr_simple_scrape.py`, `search.py`) against its specification.

The BeautifulSoup parse tree is embedded as a first-child/next-sibling
forest of nodes; the functions below are shallow embeddings of the
Python functions operating on that tree.  External library calls
(`html2text`, `requests.raise_for_status`, `str(soup)`) are modelled at
the fidelity the source relies on, as stated in their doc comments.
-/

namespace TkrSearxng

/-- A sequence of sibling nodes of a parsed HTML document, in
first-child/next-sibling form: `text s rest` is a text node followed by
its right siblings, `elem tag attrs children rest` an element node with
its attribute list, its children and its right siblings.  This models
the BeautifulSoup tree that `simple_scrape` manipulates. -/
inductive Forest where
  | nil : Forest
  | text : String → Forest → Forest
  | elem : String → List (String × String) → Forest → Forest → Forest
deriving DecidableEq, Repr

/-- First value bound to attribute `key`, modelling `tag[key]` /
`tag.get(key)` on a BeautifulSoup element. -/
def getAttr (attrs : List (String × String)) (key : String) : Option String :=
  match attrs with
  | [] => none
  | (k, v) :: rest => if k = key then some v else getAttr rest key

/-- The tags decomposed by `simple_scrape`:
`for tag in soup(['script', 'style', 'template', 'svg']): tag.decompose()`. -/
def isBanned (t : String) : Bool :=
  t = "script" || t = "style" || t = "template" || t = "svg"

/-- Result of the decompose loop of `simple_scrape`: every element whose
tag is in the banned list is removed together with its whole subtree. -/
def cleanForest : Forest → Forest
  | .nil => .nil
  | .text s rest => .text s (cleanForest rest)
  | .elem t a cs rest =>
    if isBanned t then cleanForest rest
    else .elem t a (cleanForest cs) (cleanForest rest)

/-- `true` iff no element with a banned tag occurs anywhere in the forest. -/
def bannedFree : Forest → Bool
  | .nil => true
  | .text _ rest => bannedFree rest
  | .elem t _ cs rest => !isBanned t && bannedFree cs && bannedFree rest

/-- All text-node contents of a forest, depth-first document order. -/
def collectTexts : Forest → List String
  | .nil => []
  | .text s rest => s :: collectTexts rest
  | .elem _ _ cs rest => collectTexts cs ++ collectTexts rest

/-- Text-node contents that lie outside every banned element. -/
def collectTextsOutside : Forest → List String
  | .nil => []
  | .text s rest => s :: collectTextsOutside rest
  | .elem t _ cs rest =>
    (if isBanned t then [] else collectTextsOutside cs) ++ collectTextsOutside rest

/-- Attribute lists of all `img` elements in document order, modelling
`soup.find_all('img')`. -/
def collectImgs : Forest → List (List (String × String))
  | .nil => []
  | .text _ rest => collectImgs rest
  | .elem t a cs rest =>
    (if t = "img" then [a] else []) ++ collectImgs cs ++ collectImgs rest

/-- `img` attribute lists lying outside every banned element. -/
def collectImgsOutside : Forest → List (List (String × String))
  | .nil => []
  | .text _ rest => collectImgsOutside rest
  | .elem t a cs rest =>
    (if isBanned t
     then []
     else (if t = "img" then [a] else []) ++ collectImgsOutside cs) ++
    collectImgsOutside rest

/-- One `<li>` item of the image list, modelling the comprehension
`f"<li><img src='{img['src']}' alt='{img.get('alt', '')}'></li>"
for img in images if img.has_attr('src')`: `none` when `src` is absent. -/
def imgItem (a : List (String × String)) : Option String :=
  match getAttr a "src" with
  | none => none
  | some s =>
    some ("<li><img src='" ++ s ++ "' alt='" ++ (getAttr a "alt").getD "" ++ "'></li>")

/-- First element with tag `body`, depth-first pre-order, modelling
`soup.find('body')`; the found element is returned with no right sibling. -/
def findBody : Forest → Option Forest
  | .nil => none
  | .text _ rest => findBody rest
  | .elem t a cs rest =>
    if t = "body" then some (.elem t a cs .nil)
    else
      match findBody cs with
      | some b => some b
      | none => findBody rest

/-- `true` iff no element with tag `body` occurs anywhere in the forest. -/
def noBody : Forest → Bool
  | .nil => true
  | .text _ rest => noBody rest
  | .elem t _ cs rest => !(t = "body") && noBody cs && noBody rest

/-- Whitespace characters collapsed by the markdown renderer. -/
def isWs (c : Char) : Bool :=
  c = ' ' || c = '\t' || c = '\n' || c = '\r'

/-- Collapse every run of whitespace to a single space; the flag records
whether the previously emitted character was a space (initially true, so
leading whitespace is dropped). -/
def collapseWs : Bool → List Char → List Char
  | _, [] => []
  | prevWs, c :: rest =>
    if isWs c then
      if prevWs then collapseWs true rest
      else ' ' :: collapseWs true rest
    else c :: collapseWs false rest

/-- Drop the elements satisfying `p` from both ends of a list. -/
def trimBy (p : Char → Bool) (l : List Char) : List Char :=
  ((l.dropWhile p).reverse.dropWhile p).reverse

/-- Whitespace-normalise a string: collapse whitespace runs to single
spaces and trim both ends. -/
def normalizeWs (s : String) : String :=
  ⟨trimBy (fun c => c == ' ') (collapseWs true s.data)⟩

/-- The characters stripped by Python's `str.strip()` with no argument. -/
def pyWs (c : Char) : Bool :=
  c = ' ' || c = '\t' || c = '\n' || c = '\r' || c = '\x0b' || c = '\x0c'

/-- Python `s.strip()`: remove leading and trailing whitespace. -/
def pyStrip (s : String) : String :=
  ⟨trimBy pyWs s.data⟩

/-- Inline rendering of a forest: text nodes verbatim, an `a` element
with an `href` as `[text](href)`, every other element transparent. -/
def inlineMd : Forest → String
  | .nil => ""
  | .text s rest => s ++ inlineMd rest
  | .elem t a cs rest =>
    (if t = "a" then
       match getAttr a "href" with
       | some h => "[" ++ inlineMd cs ++ "](" ++ h ++ ")"
       | none => inlineMd cs
     else inlineMd cs) ++ inlineMd rest

/-- Models the `html2text` dependency as configured by
`html_to_markdown` (`ignore_links = False`), at the fidelity the claims
rely on: inline text with whitespace runs collapsed and trimmed,
hyperlinks rendered inline as `[text](href)`, and the trailing blank
line that `handle()` appends.  Block-level markdown (headings, lists)
is not modelled. -/
def html_to_markdown (body : Forest) : String :=
  normalizeWs (inlineMd body) ++ "\n\n"

/-- Attribute rendering for the serializer. -/
def attrsHtml : List (String × String) → String
  | [] => ""
  | (k, v) :: rest => " " ++ k ++ "=\"" ++ v ++ "\"" ++ attrsHtml rest

/-- Models `str(soup)` at the fidelity needed here: text nodes verbatim,
elements re-serialized with their attributes and children (entity
escaping is not modelled). -/
def serialize : Forest → String
  | .nil => ""
  | .text s rest => s ++ serialize rest
  | .elem t a cs rest =>
    "<" ++ t ++ attrsHtml a ++ ">" ++ serialize cs ++ "</" ++ t ++ ">" ++ serialize rest

/-- The extraction stage of `simple_scrape`, applied to an already
parsed document: decompose banned tags, then dispatch on the
`img_only` / `export_html` flags exactly as the source does, the
default being the markdown path with its emptiness check
`if not markdown_content.strip(): return None`. -/
def simple_scrape_extract (doc : Forest) (export_html : Bool) (img_only : Bool) :
    Option String :=
  let soup := cleanForest doc
  if img_only then
    some ("<ul>" ++ String.join ((collectImgs soup).filterMap imgItem) ++ "</ul>")
  else if export_html then
    some (serialize soup)
  else
    match findBody soup with
    | none => none
    | some body =>
      let markdown_content := html_to_markdown body
      if pyStrip markdown_content = "" then none else some markdown_content

/-- Models `response.raise_for_status()`: an error for status codes in
[400, 600), with the human-readable message `requests` builds from the
code (reason phrase and URL are not modelled). -/
def raise_for_status (code : Nat) : Except String Unit :=
  if 400 ≤ code ∧ code < 600 then
    .error (toString code ++ (if code < 500 then " Client Error" else " Server Error"))
  else .ok ()

/-- `simple_scrape` with the network call abstracted: the fetch outcome
is an input, `Except.error e` standing for a raised
`requests.exceptions.RequestException` with message `e`, `Except.ok`
for a response with its status code and parsed document.  Returns the
function's result together with the list of error-log messages emitted
(`logging.error(f"Error fetching the website: {e}")`); every failure
path returns `none` rather than propagating the exception. -/
def simple_scrape (fetched : Except String (Nat × Forest))
    (export_html : Bool) (img_only : Bool) : Option String × List String :=
  match fetched with
  | .error e => (none, ["Error fetching the website: " ++ e])
  | .ok (code, doc) =>
    match raise_for_status code with
    | .error e => (none, ["Error fetching the website: " ++ e])
    | .ok _ => (simple_scrape_extract doc export_html img_only, [])

/-- `needle` is a prefix of `hay`. -/
def startsList : List Char → List Char → Bool
  | [], _ => true
  | _ :: _, [] => false
  | a :: as, b :: bs => a == b && startsList as bs

/-- `needle` occurs contiguously somewhere in `hay`. -/
def containsSub (needle : List Char) : List Char → Bool
  | [] => needle.isEmpty
  | c :: rest => startsList needle (c :: rest) || containsSub needle rest

/-- Models `re.sub(r'^https?://(www\.)?', '', url)` from
`create_filename_from_url`: strip one leading `http://` or `https://`,
and, only when such a protocol was stripped, one following `www.`. -/
def stripScheme (url : String) : String :=
  let cs := url.data
  let afterProto : Option (List Char) :=
    if startsList "https://".data cs then some (cs.drop 8)
    else if startsList "http://".data cs then some (cs.drop 7)
    else none
  match afterProto with
  | none => url
  | some rest => if startsList "www.".data rest then ⟨rest.drop 4⟩ else ⟨rest⟩

/-- `re.sub(r'[^a-zA-Z0-9]', '-', s)`: each character outside
`a-zA-Z0-9` is replaced by one hyphen. -/
def hyphenate (s : String) : String :=
  ⟨s.data.map (fun c => if c.isAlphanum then c else '-')⟩

/-- Python `s.strip('-')`: remove leading and trailing hyphens. -/
def stripDashes (s : String) : String :=
  ⟨trimBy (fun c => c == '-') s.data⟩

/-- `create_filename_from_url(url, is_html, img_only)` from
`tkr_simple_scrape.py`. -/
def create_filename_from_url (url : String) (is_html : Bool) (img_only : Bool) :
    String :=
  let filename := stripDashes (hyphenate (stripScheme url))
  let filename := if img_only then filename ++ ".img-only" else filename
  let extension := if is_html then ".html" else ".md"
  filename ++ extension

/-- A character admitted unchanged by `sanitize_filename`'s character
class `[a-zA-Z0-9_-]`. -/
def isAllowedChar (c : Char) : Bool :=
  c.isAlphanum || c = '_' || c = '-'

/-- `sanitize_filename(query, max_length)` from `search.py`:
`re.sub(r'[^a-zA-Z0-9_-]', '_', query)[:max_length]`. -/
def sanitize_filename (query : String) (max_length : Nat) : String :=
  ⟨(query.data.map (fun c => if isAllowedChar c then c else '_')).take max_length⟩

/-- `InfixL needle hay`: `needle` occurs contiguously inside `hay`. -/
def InfixL (needle hay : List Char) : Prop :=
  ∃ p q, hay = p ++ needle ++ q

/-- An element with tag `t`, attribute list `a` and children `cs`
occurs somewhere (at any depth) in the forest. -/
inductive InForest (t : String) (a : List (String × String)) (cs : Forest) :
    Forest → Prop
  | here (rest : Forest) : InForest t a cs (.elem t a cs rest)
  | inChild {u : String} {b : List (String × String)} {cs2 rest : Forest} :
      InForest t a cs cs2 → InForest t a cs (.elem u b cs2 rest)
  | inSibElem {u : String} {b : List (String × String)} {cs2 rest : Forest} :
      InForest t a cs rest → InForest t a cs (.elem u b cs2 rest)
  | inSibText {s : String} {rest : Forest} :
      InForest t a cs rest → InForest t a cs (.text s rest)

/-! ### Helper lemmas about the decompose pass -/

theorem bannedFree_cleanForest (f : Forest) : bannedFree (cleanForest f) = true := by
  induction f with
  | nil => rfl
  | text s rest ih => simpa [cleanForest, bannedFree] using ih
  | elem t a cs rest ihc ihr =>
    cases hb : isBanned t
    · simp [cleanForest, hb, bannedFree, ihc, ihr]
    · simpa [cleanForest, hb] using ihr

theorem collectTexts_cleanForest (f : Forest) :
    collectTexts (cleanForest f) = collectTextsOutside f := by
  induction f with
  | nil => rfl
  | text s rest ih => simp [cleanForest, collectTexts, collectTextsOutside, ih]
  | elem t a cs rest ihc ihr =>
    cases hb : isBanned t
    · simp [cleanForest, hb, collectTexts, collectTextsOutside, ihc, ihr]
    · simp [cleanForest, hb, collectTexts, collectTextsOutside, ihr]

theorem collectImgs_cleanForest (f : Forest) :
    collectImgs (cleanForest f) = collectImgsOutside f := by
  induction f with
  | nil => rfl
  | text s rest ih => simp [cleanForest, collectImgs, collectImgsOutside, ih]
  | elem t a cs rest ihc ihr =>
    cases hb : isBanned t
    · simp [cleanForest, hb, collectImgs, collectImgsOutside, ihc, ihr]
    · simp [cleanForest, hb, collectImgs, collectImgsOutside, ihr]

theorem collectImgsOutside_sublist (f : Forest) :
    List.Sublist (collectImgsOutside f) (collectImgs f) := by
  induction f with
  | nil => exact List.Sublist.refl _
  | text s rest ih => simpa [collectImgsOutside, collectImgs] using ih
  | elem t a cs rest ihc ihr =>
    cases hb : isBanned t
    · simp only [collectImgsOutside, collectImgs, hb, Bool.false_eq_true, if_false]
      exact ((List.Sublist.refl _).append ihc).append ihr
    · simp only [collectImgsOutside, collectImgs, hb, if_true, List.nil_append]
      exact ihr.trans (List.sublist_append_right _ _)

theorem noBody_cleanForest (f : Forest) (h : noBody f = true) :
    noBody (cleanForest f) = true := by
  induction f with
  | nil => rfl
  | text s rest ih => simp only [noBody] at h ⊢; simpa [cleanForest, noBody] using ih h
  | elem t a cs rest ihc ihr =>
    simp only [noBody, Bool.and_eq_true, Bool.not_eq_true'] at h
    cases hb : isBanned t
    · simp [cleanForest, hb, noBody, h.1.1, ihc h.1.2, ihr h.2]
    · simpa [cleanForest, hb] using ihr h.2

theorem findBody_of_noBody (f : Forest) (h : noBody f = true) : findBody f = none := by
  induction f with
  | nil => rfl
  | text s rest ih => simp only [noBody] at h; simpa [findBody] using ih h
  | elem t a cs rest ihc ihr =>
    simp only [noBody, Bool.and_eq_true, Bool.not_eq_true'] at h
    have ht : ¬(t = "body") := by simpa using h.1.1
    simp [findBody, ht, ihc h.1.2, ihr h.2]

/-! ### Helper lemmas about list trimming -/

theorem mem_trimBy {p : Char → Bool} {c : Char} {l : List Char}
    (h : c ∈ trimBy p l) : c ∈ l := by
  unfold trimBy at h
  rw [List.mem_reverse] at h
  have h2 := (List.dropWhile_sublist p).subset h
  rw [List.mem_reverse] at h2
  exact (List.dropWhile_sublist p).subset h2

theorem head?_dropWhile (p : Char → Bool) :
    ∀ (l : List Char) {c : Char}, (l.dropWhile p).head? = some c → p c = false
  | [], c, h => by simp [List.dropWhile] at h
  | a :: l, c, h => by
    by_cases ha : p a = true
    · rw [List.dropWhile_cons_of_pos ha] at h
      exact head?_dropWhile p l h
    · rw [List.dropWhile_cons_of_neg ha] at h
      simp only [List.head?_cons, Option.some.injEq] at h
      subst h
      exact Bool.not_eq_true _ ▸ (by simpa using ha)

theorem getLast?_dropWhile (p : Char → Bool) :
    ∀ l : List Char, l.dropWhile p ≠ [] → (l.dropWhile p).getLast? = l.getLast?
  | [], h => absurd rfl h
  | a :: l, h => by
    by_cases ha : p a = true
    · rw [List.dropWhile_cons_of_pos ha] at h ⊢
      rw [getLast?_dropWhile p l h]
      cases l with
      | nil => exact absurd rfl h
      | cons b l' => rw [List.getLast?_cons_cons]
    · rw [List.dropWhile_cons_of_neg ha]

theorem trimBy_head {p : Char → Bool} {l : List Char} {c : Char}
    (h : (trimBy p l).head? = some c) : p c = false := by
  unfold trimBy at h
  rw [List.head?_reverse] at h
  have hne : (l.dropWhile p).reverse.dropWhile p ≠ [] := by
    intro he; rw [he] at h; simp at h
  rw [getLast?_dropWhile p _ hne, List.getLast?_reverse] at h
  exact head?_dropWhile p _ h

theorem trimBy_getLast {p : Char → Bool} {l : List Char} {c : Char}
    (h : (trimBy p l).getLast? = some c) : p c = false := by
  unfold trimBy at h
  rw [List.getLast?_reverse] at h
  exact head?_dropWhile p _ h

/-- The text nodes of the element returned by `findBody` all occur among
the text nodes of the searched forest. -/
theorem collectTexts_findBody (f : Forest) :
    ∀ b : Forest, findBody f = some b →
      List.Sublist (collectTexts b) (collectTexts f) := by
  induction f with
  | nil => intro b h; simp [findBody] at h
  | text s rest ih =>
    intro b h
    simp only [findBody] at h
    exact (ih b h).trans (List.sublist_cons_self s _)
  | elem t a cs rest ihc ihr =>
    intro b h
    simp only [findBody] at h
    by_cases ht : t = "body"
    · rw [if_pos ht] at h
      cases h
      simp only [collectTexts, List.append_nil]
      exact List.sublist_append_left _ _
    · rw [if_neg ht] at h
      cases hc : findBody cs with
      | some b2 =>
        rw [hc] at h
        cases h
        exact (ihc _ hc).trans (List.sublist_append_left _ _)
      | none =>
        rw [hc] at h
        exact (ihr b h).trans (List.sublist_append_right _ _)

/-! ### Helper lemmas about substring preservation -/

theorem infixL_app_left {n h : List Char} (x : List Char) (hi : InfixL n h) :
    InfixL n (x ++ h) := by
  obtain ⟨p, q, rfl⟩ := hi
  exact ⟨x ++ p, q, by simp [List.append_assoc]⟩

theorem infixL_app_right {n h : List Char} (x : List Char) (hi : InfixL n h) :
    InfixL n (h ++ x) := by
  obtain ⟨p, q, rfl⟩ := hi
  exact ⟨p, q ++ x, by simp [List.append_assoc]⟩

theorem infixL_cons {n h : List Char} (c : Char) (hi : InfixL n h) :
    InfixL n (c :: h) := by
  simpa using infixL_app_left [c] hi

theorem infixL_trans {a b c : List Char} (h1 : InfixL a b) (h2 : InfixL b c) :
    InfixL a c := by
  obtain ⟨p, q, rfl⟩ := h1
  obtain ⟨r, w, rfl⟩ := h2
  exact ⟨r ++ p, q ++ w, by simp [List.append_assoc]⟩

theorem infixL_reverse {n h : List Char} (hi : InfixL n h) :
    InfixL n.reverse h.reverse := by
  obtain ⟨p, q, rfl⟩ := hi
  exact ⟨q.reverse, p.reverse, by simp [List.append_assoc]⟩

theorem collapseWs_wsFree_append (s : List Char) (hs : ∀ c ∈ s, isWs c = false) :
    s ≠ [] → ∀ (b : Bool) (post : List Char),
      collapseWs b (s ++ post) = s ++ collapseWs false post := by
  induction s with
  | nil => intro hne; exact absurd rfl hne
  | cons c s ih =>
    intro _ b post
    have hc : isWs c = false := hs c (List.mem_cons_self _ _)
    rw [List.cons_append]
    simp only [collapseWs, hc, Bool.false_eq_true, if_false]
    cases hsnil : s with
    | nil => simp
    | cons d s2 =>
      rw [← hsnil]
      rw [ih (fun x hx => hs x (List.mem_cons_of_mem _ hx)) (by rw [hsnil]; simp) false post]
      simp

theorem infixL_collapseWs {s : List Char} (hs : ∀ c ∈ s, isWs c = false)
    (hne : s ≠ []) (l : List Char) (b : Bool) (hi : InfixL s l) :
    InfixL s (collapseWs b l) := by
  obtain ⟨p, q, rfl⟩ := hi
  induction p generalizing b with
  | nil =>
    rw [List.nil_append]
    exact ⟨[], collapseWs false q, by
      rw [collapseWs_wsFree_append s hs hne b q, List.nil_append]⟩
  | cons c p ih =>
    have hstep : (c :: p) ++ s ++ q = c :: (p ++ s ++ q) := by simp [List.append_assoc]
    rw [hstep]
    simp only [collapseWs]
    by_cases hc : isWs c = true
    · rw [if_pos hc]
      cases b
      · exact infixL_cons _ (ih true)
      · exact ih true
    · rw [if_neg hc]
      exact infixL_cons _ (ih false)

theorem infixL_dropWhile {s : List Char} {p : Char → Bool}
    (hs : ∀ c ∈ s, p c = false) (hne : s ≠ []) :
    ∀ l, InfixL s l → InfixL s (l.dropWhile p) := by
  intro l hi
  obtain ⟨x, q, rfl⟩ := hi
  induction x with
  | nil =>
    rw [List.nil_append]
    cases s with
    | nil => exact absurd rfl hne
    | cons c s2 =>
      rw [List.cons_append, List.dropWhile_cons_of_neg]
      · exact ⟨[], q, by simp⟩
      · simp [hs c (List.mem_cons_self _ _)]
  | cons c x ih =>
    have hstep : (c :: x) ++ s ++ q = c :: (x ++ s ++ q) := by simp [List.append_assoc]
    rw [hstep]
    by_cases hc : p c = true
    · rw [List.dropWhile_cons_of_pos hc]
      exact ih
    · rw [List.dropWhile_cons_of_neg (by simp [hc])]
      exact ⟨c :: x, q, by simp [List.append_assoc]⟩

theorem infixL_trimBy {s : List Char} {p : Char → Bool}
    (hs : ∀ c ∈ s, p c = false) (hne : s ≠ []) {l : List Char}
    (hi : InfixL s l) : InfixL s (trimBy p l) := by
  unfold trimBy
  have h1 := infixL_dropWhile hs hne l hi
  have h2 := infixL_reverse h1
  have hs2 : ∀ c ∈ s.reverse, p c = false := fun c hc => hs c (List.mem_reverse.mp hc)
  have hne2 : s.reverse ≠ [] := by simpa using hne
  have h3 := infixL_dropWhile hs2 hne2 _ h2
  have h4 := infixL_reverse h3
  simpa using h4

/-- The inline rendering of the children of any element occurring in a
forest is embedded in the rendering piece produced for that element. -/
theorem inlineMd_elem_piece (u : String) (b : List (String × String)) (cs2 : Forest) :
    InfixL (inlineMd cs2).data
      (if u = "a" then
         match getAttr b "href" with
         | some h => "[" ++ inlineMd cs2 ++ "](" ++ h ++ ")"
         | none => inlineMd cs2
       else inlineMd cs2).data := by
  by_cases hu : u = "a"
  · rw [if_pos hu]
    cases hh : getAttr b "href" with
    | none => exact ⟨[], [], by simp⟩
    | some hr =>
      exact ⟨"[".data, "](".data ++ hr.data ++ ")".data,
        by simp [String.data_append, List.append_assoc]⟩
  · rw [if_neg hu]
    exact ⟨[], [], by simp⟩

/-- An anchor with an `href` occurring anywhere in a forest appears in
the inline rendering in full bracketed form `[text](href)`. -/
theorem anchor_infix_inlineMd {a : List (String × String)} {cs : Forest}
    {f : Forest} {href : String} (hin : InForest "a" a cs f)
    (hh : getAttr a "href" = some href) :
    InfixL ("[" ++ inlineMd cs ++ "](" ++ href ++ ")").data (inlineMd f).data := by
  induction hin with
  | here rest =>
    have he : inlineMd (Forest.elem "a" a cs rest)
        = ("[" ++ inlineMd cs ++ "](" ++ href ++ ")") ++ inlineMd rest := by
      simp [inlineMd, hh]
    rw [he, String.data_append]
    exact infixL_app_right _ ⟨[], [], by simp⟩
  | inChild hsub ih =>
    rename_i u b cs2 rest
    simp only [inlineMd]
    rw [String.data_append]
    exact infixL_app_right _ (infixL_trans ih (inlineMd_elem_piece u b cs2))
  | inSibElem hsub ih =>
    simp only [inlineMd]
    rw [String.data_append]
    exact infixL_app_left _ ih
  | inSibText hsub ih =>
    simp only [inlineMd]
    rw [String.data_append]
    exact infixL_app_left _ ih

/-! ### Claim theorems -/

/-- C10: for every query string and every non-negative `max_length`,
`sanitize_filename` returns a string of length at most `max_length`
whose every character is an ASCII letter, digit, underscore or hyphen;
every other character of the query is replaced by an underscore before
truncation. -/
theorem sanitize_filename_bounded_and_safe (query : String) (max_length : Nat) :
    (sanitize_filename query max_length).length ≤ max_length
    ∧ ∀ c ∈ (sanitize_filename query max_length).data,
        c.isAlpha = true ∨ c.isDigit = true ∨ c = '_' ∨ c = '-' := by
  constructor
  · have hl : (sanitize_filename query max_length).length
        = ((query.data.map (fun c => if isAllowedChar c then c else '_')).take
            max_length).length := rfl
    rw [hl, List.length_take]
    exact Nat.min_le_left _ _
  · intro c hc
    have hc2 : c ∈ query.data.map (fun c => if isAllowedChar c then c else '_') :=
      List.mem_of_mem_take hc
    obtain ⟨a, _, rfl⟩ := List.mem_map.mp hc2
    by_cases h : isAllowedChar a = true
    · rw [if_pos h]
      unfold isAllowedChar at h
      simp only [Char.isAlphanum, Bool.or_eq_true, decide_eq_true_eq] at h
      tauto
    · rw [if_neg h]
      tauto

/-- C1 counterexample: the code replaces each non-alphanumeric character
with one hyphen, so a run of two non-alphanumerics (`/?` in
`http://a.com/?q=1`) yields two adjacent hyphens in the derived stem,
refuting "runs collapsed to a single hyphen / no two adjacent hyphens";
moreover a leading `www.` is only stripped after a protocol, so
`www.a.com` keeps its `www`. -/
theorem create_filename_adjacent_hyphens :
    create_filename_from_url "http://a.com/?q=1" true false = "a-com--q-1.html"
    ∧ containsSub ('-' :: '-' :: []) "a-com--q-1".data = true
    ∧ create_filename_from_url "www.a.com" true false = "www-a-com.html" :=
  ⟨by decide, by decide, by decide⟩

/-- C1 (amended): the CLI filename derivation strips a leading
`http://` or `https://` (and a following `www.` only when a protocol
was stripped), replaces each non-alphanumeric character with one hyphen
(so adjacent non-alphanumerics yield adjacent hyphens), trims leading
and trailing hyphens, and appends the mode extension; every character
of the stem is alphanumeric or a hyphen and the stem neither starts nor
ends with a hyphen. -/
theorem create_filename_from_url_shape (url : String) (is_html img_only : Bool) :
    create_filename_from_url url is_html img_only
      = stripDashes (hyphenate (stripScheme url))
        ++ (if img_only then ".img-only" else "")
        ++ (if is_html then ".html" else ".md")
    ∧ (∀ c ∈ (stripDashes (hyphenate (stripScheme url))).data,
        c.isAlphanum = true ∨ c = '-')
    ∧ (stripDashes (hyphenate (stripScheme url))).data.head? ≠ some '-'
    ∧ (stripDashes (hyphenate (stripScheme url))).data.getLast? ≠ some '-'
    ∧ create_filename_from_url "http://www.a.com" true false = "a-com.html"
    ∧ create_filename_from_url "www.a.com" true false = "www-a-com.html" := by
  refine ⟨?_, ?_, ?_, ?_, by decide, by decide⟩
  · cases img_only <;> cases is_html <;> simp [create_filename_from_url]
  · intro c hc
    have hc2 : c ∈ trimBy (fun c => c == '-') (hyphenate (stripScheme url)).data := hc
    have hc3 := mem_trimBy hc2
    obtain ⟨a, _, rfl⟩ := List.mem_map.mp hc3
    by_cases h : a.isAlphanum = true
    · rw [if_pos h]; exact Or.inl h
    · rw [if_neg h]; exact Or.inr rfl
  · intro h
    have h2 : (trimBy (fun c => c == '-')
        (hyphenate (stripScheme url)).data).head? = some '-' := h
    have := trimBy_head h2
    simp at this
  · intro h
    have h2 : (trimBy (fun c => c == '-')
        (hyphenate (stripScheme url)).data).getLast? = some '-' := h
    have := trimBy_getLast h2
    simp at this

/-- C5: for every parsed document containing no `body` element, the
default (markdown) extraction path returns `None` (the code's
`present=false`); no exception is modelled because the function is
total. -/
theorem simple_scrape_extract_no_body (doc : Forest) (h : noBody doc = true) :
    simple_scrape_extract doc false false = none := by
  have h1 := noBody_cleanForest doc h
  have h2 := findBody_of_noBody _ h1
  simp [simple_scrape_extract, h2]

/-- Witness for C5 at a concrete body-less document. -/
theorem simple_scrape_extract_no_body_witness :
    simple_scrape_extract (.elem "p" [] (.text "x" .nil) .nil) false false = none :=
  simple_scrape_extract_no_body _ (by decide)

/-- C8: when no `img` element of the document carries a `src`
attribute (in particular when there are no images at all), ImageList
mode still succeeds, returning the empty-list wrapper `<ul></ul>`. -/
theorem imgOnly_empty_wrapper (doc : Forest)
    (h : ∀ a ∈ collectImgs doc, getAttr a "src" = none) :
    simple_scrape_extract doc false true = some "<ul></ul>" := by
  have hsub : ∀ a ∈ collectImgs (cleanForest doc), getAttr a "src" = none := by
    intro a ha
    rw [collectImgs_cleanForest] at ha
    exact h a ((collectImgsOutside_sublist doc).subset ha)
  have hnil : (collectImgs (cleanForest doc)).filterMap imgItem = [] :=
    List.filterMap_eq_nil_iff.mpr (fun a ha => by unfold imgItem; rw [hsub a ha])
  simp only [simple_scrape_extract, hnil, if_true]
  rfl

/-- Witness for C8 at a document whose only image has no `src`. -/
theorem imgOnly_empty_wrapper_witness :
    simple_scrape_extract (.elem "img" [("alt", "x")] .nil .nil) false true
      = some "<ul></ul>" :=
  imgOnly_empty_wrapper _ (by decide)

/-- C2 counterexample: the `export_html` path returns `str(soup)` with
no emptiness check, so on an empty document it returns the empty string
as a success value, violating the invariant for this mode. -/
theorem export_html_empty_success :
    simple_scrape_extract .nil true false = some "" ∧ pyStrip "" = "" :=
  ⟨by decide, by decide⟩

/-- C2 (amended): the non-emptiness invariant holds for the default
markdown path (guarded by `if not markdown_content.strip()`) and for
ImageList mode (whose wrapper is never empty), but not for the
`export_html` path. -/
theorem extract_success_nonempty :
    (∀ (doc : Forest) (s : String),
        simple_scrape_extract doc false false = some s → pyStrip s ≠ "")
    ∧ ∀ (doc : Forest) (eh : Bool) (s : String),
        simple_scrape_extract doc eh true = some s → s ≠ "" := by
  constructor
  · intro doc s h
    unfold simple_scrape_extract at h
    simp only [Bool.false_eq_true, if_false] at h
    cases hb : findBody (cleanForest doc) with
    | none =>
      rw [hb] at h
      exact Option.noConfusion h
    | some b =>
      rw [hb] at h
      have h2 : (if pyStrip (html_to_markdown b) = "" then none
          else some (html_to_markdown b)) = some s := h
      by_cases hm : pyStrip (html_to_markdown b) = ""
      · rw [if_pos hm] at h2
        exact Option.noConfusion h2
      · rw [if_neg hm] at h2
        cases h2
        exact hm
  · intro doc eh s h
    unfold simple_scrape_extract at h
    simp only [if_true] at h
    have hs : s = "<ul>" ++ String.join ((collectImgs (cleanForest doc)).filterMap imgItem)
        ++ "</ul>" := by
      cases h; rfl
    intro he
    rw [hs] at he
    have := congrArg String.data he
    simp only [String.data_append] at this
    have h1 := (List.append_eq_nil.mp (List.append_eq_nil.mp this).1).1
    exact absurd h1 (by decide)

/-- Witness for C2 (amended) at a concrete markdown success and a
concrete ImageList success. -/
theorem extract_success_nonempty_witness :
    pyStrip "hi\n\n" ≠ "" ∧ ("<ul></ul>" : String) ≠ "" :=
  ⟨extract_success_nonempty.1 (.elem "body" [] (.text "hi" .nil) .nil) "hi\n\n" (by decide),
   extract_success_nonempty.2 .nil true "<ul></ul>" (by decide)⟩

/-- C3 counterexample: an `img` that carries a `src` but sits inside a
`template` element is removed by the decompose pass before
`find_all('img')` runs, so ImageList mode drops it, refuting
"including images inside elements such as svg or template". -/
theorem imgOnly_template_dropped :
    simple_scrape_extract
        (.elem "template" [] (.elem "img" [("src", "t.png")] .nil .nil) .nil) false true
      = some "<ul></ul>"
    ∧ containsSub "t.png".data "<ul></ul>".data = false :=
  ⟨by decide, by decide⟩

/-- C3 (amended): ImageList mode collects exactly the `img` elements
with a `src` attribute that lie outside every script/style/template/svg
element (the whole document, not just the body, but after the
decompose pass), renders each with its `src` and `alt` (empty when
absent) and skips `src`-less images; on the spec's example document the
output has exactly one item for `a.png` with alt `A`, and an image
outside the body is still collected. -/
theorem imgOnly_collects_after_clean :
    (∀ f : Forest, collectImgs (cleanForest f) = collectImgsOutside f)
    ∧ simple_scrape_extract
        (.elem "html" [] (.elem "body" []
            (.elem "img" [("src", "a.png"), ("alt", "A")] .nil
              (.elem "img" [("alt", "no-src")] .nil .nil)) .nil) .nil) false true
      = some "<ul><li><img src='a.png' alt='A'></li></ul>"
    ∧ simple_scrape_extract
        (.elem "head" [] (.elem "img" [("src", "h.png")] .nil .nil) .nil) false true
      = some "<ul><li><img src='h.png' alt=''></li></ul>" :=
  ⟨collectImgs_cleanForest, by decide, by decide⟩

/-- C4 counterexample: on `<body>\n\n\n\ntext\n\n\n\n</body>` the
default extraction returns the html2text rendering `"text\n\n"` (a
trailing blank line is appended and the code never strips the returned
value), not exactly `"text"`. -/
theorem plaintext_not_exact :
    simple_scrape_extract (.elem "body" [] (.text "\n\n\n\ntext\n\n\n\n" .nil) .nil)
        false false
      ≠ some "text" := by decide

/-- C4 (amended): the code has no separate PlainText mode and no
newline/tab run-collapsing regex; the default path renders the body via
html2text, whose whitespace normalization yields `"text"` followed by
the trailing blank line, i.e. the output is exactly `"text\n\n"`. -/
theorem markdown_collapses_whitespace :
    simple_scrape_extract (.elem "body" [] (.text "\n\n\n\ntext\n\n\n\n" .nil) .nil)
        false false
      = some "text\n\n" := by decide

/-- C6: a transport-level fault (modelled as a raised
`RequestException` with message `e`) and every HTTP status outside the
success range (every code in [400, 600), the range `raise_for_status`
rejects — in particular 404) make `simple_scrape` return `None`
(status = failure) while logging a non-empty human-readable error, for
every mode; the function is total, so no exception propagates. -/
theorem simple_scrape_failure_paths :
    (∀ (e : String) (eh io : Bool),
        simple_scrape (Except.error e) eh io
          = (none, ["Error fetching the website: " ++ e])
        ∧ ("Error fetching the website: " ++ e) ≠ "")
    ∧ (∀ (code : Nat) (doc : Forest) (eh io : Bool), 400 ≤ code → code < 600 →
        simple_scrape (Except.ok (code, doc)) eh io
          = (none, ["Error fetching the website: "
              ++ (toString code
                  ++ if code < 500 then " Client Error" else " Server Error")])
        ∧ ("Error fetching the website: "
              ++ (toString code
                  ++ if code < 500 then " Client Error" else " Server Error")) ≠ "")
    ∧ ∀ (doc : Forest) (eh io : Bool),
        simple_scrape (Except.ok (404, doc)) eh io
          = (none, ["Error fetching the website: 404 Client Error"])
        ∧ ("Error fetching the website: 404 Client Error" : String) ≠ "" := by
  refine ⟨?_, ?_, ?_⟩
  · intro e eh io
    refine ⟨rfl, ?_⟩
    intro h
    have h2 := congrArg String.data h
    rw [String.data_append] at h2
    exact absurd (List.append_eq_nil.mp h2).1 (by decide)
  · intro code doc eh io h1 h2
    have hr : raise_for_status code
        = .error (toString code
            ++ if code < 500 then " Client Error" else " Server Error") := by
      unfold raise_for_status
      rw [if_pos ⟨h1, h2⟩]
    constructor
    · have hm : simple_scrape (Except.ok (code, doc)) eh io
          = (match raise_for_status code with
             | .error e => (none, ["Error fetching the website: " ++ e])
             | .ok _ => (simple_scrape_extract doc eh io, [])) := rfl
      rw [hm, hr]
    · intro h
      have h3 := congrArg String.data h
      rw [String.data_append] at h3
      exact absurd (List.append_eq_nil.mp h3).1 (by decide)
  · intro doc eh io
    exact ⟨by rfl, by decide⟩

/-- Witness for C6 at a 4xx status (404) and a 5xx status (503). -/
theorem simple_scrape_failure_paths_witness :
    (simple_scrape (Except.ok (404, Forest.nil)) false false
        = (none, ["Error fetching the website: "
            ++ (toString 404 ++ if 404 < 500 then " Client Error" else " Server Error")])
      ∧ ("Error fetching the website: "
            ++ (toString 404 ++ if 404 < 500 then " Client Error" else " Server Error")) ≠ "")
    ∧ (simple_scrape (Except.ok (503, Forest.nil)) false false
        = (none, ["Error fetching the website: "
            ++ (toString 503 ++ if 503 < 500 then " Client Error" else " Server Error")])
      ∧ ("Error fetching the website: "
            ++ (toString 503 ++ if 503 < 500 then " Client Error" else " Server Error")) ≠ "") :=
  ⟨simple_scrape_failure_paths.2.1 404 Forest.nil false false (by decide) (by decide),
   simple_scrape_failure_paths.2.1 503 Forest.nil false false (by decide) (by decide)⟩

/-- C7: the decompose pass runs before any rendering; afterwards no
script/style/template/svg element remains anywhere in the tree, the
surviving text nodes are exactly the original text nodes lying outside
such elements, and the body handed to the markdown renderer only
carries such surviving text — so script/style text never reaches the
PlainText/Markdown output. -/
theorem clean_removes_scripts (f : Forest) :
    bannedFree (cleanForest f) = true
    ∧ collectTexts (cleanForest f) = collectTextsOutside f
    ∧ ∀ b : Forest, findBody (cleanForest f) = some b →
        List.Sublist (collectTexts b) (collectTextsOutside f) := by
  refine ⟨bannedFree_cleanForest f, collectTexts_cleanForest f, ?_⟩
  intro b hb
  have := collectTexts_findBody (cleanForest f) b hb
  rwa [collectTexts_cleanForest] at this

/-- C9: whenever the cleaned body contains a hyperlink whose visible
text and whose target contain no whitespace, any successful
markdown-mode extraction contains both the visible text and the href
target as substrings (the modelled html2text renders anchors as
`[text](href)` because `ignore_links` is false). -/
theorem markdown_preserves_links
    (doc b : Forest) (a : List (String × String)) (cs : Forest)
    (t href s : String)
    (hb : findBody (cleanForest doc) = some b)
    (ha : InForest "a" a cs b)
    (hh : getAttr a "href" = some href)
    (ht : inlineMd cs = t)
    (htws : ∀ c ∈ t.data, isWs c = false) (htne : t ≠ "")
    (hhws : ∀ c ∈ href.data, isWs c = false) (hhne : href ≠ "")
    (hs : simple_scrape_extract doc false false = some s) :
    InfixL t.data s.data ∧ InfixL href.data s.data := by
  have hmd : s = html_to_markdown b := by
    unfold simple_scrape_extract at hs
    simp only [Bool.false_eq_true, if_false, hb] at hs
    have hs2 : (if pyStrip (html_to_markdown b) = "" then none
        else some (html_to_markdown b)) = some s := hs
    by_cases hm : pyStrip (html_to_markdown b) = ""
    · rw [if_pos hm] at hs2
      exact Option.noConfusion hs2
    · rw [if_neg hm] at hs2
      cases hs2
      rfl
  have hbr := anchor_infix_inlineMd ha hh
  rw [ht] at hbr
  have htB : InfixL t.data ("[" ++ t ++ "](" ++ href ++ ")").data :=
    ⟨"[".data, "](".data ++ href.data ++ ")".data,
      by simp [String.data_append, List.append_assoc]⟩
  have hhB : InfixL href.data ("[" ++ t ++ "](" ++ href ++ ")").data :=
    ⟨"[".data ++ t.data ++ "](".data, ")".data,
      by simp [String.data_append, List.append_assoc]⟩
  have htdata : t.data ≠ [] := fun he => htne (String.ext he)
  have hhdata : href.data ≠ [] := fun he => hhne (String.ext he)
  have hsp : ∀ {u : String}, (∀ c ∈ u.data, isWs c = false) →
      ∀ c ∈ u.data, (c == ' ') = false := by
    intro u hu c hc
    have := hu c hc
    simp only [isWs, Bool.or_eq_false_iff, decide_eq_false_iff_not] at this
    exact beq_eq_false_iff_ne.mpr this.1.1.1
  have hlift : ∀ (u : String), u.data ≠ [] → (∀ c ∈ u.data, isWs c = false) →
      InfixL u.data (inlineMd b).data → InfixL u.data (html_to_markdown b).data := by
    intro u hune huws hu
    have h2 := infixL_collapseWs huws hune _ true hu
    have h3 : InfixL u.data (normalizeWs (inlineMd b)).data :=
      infixL_trimBy (hsp huws) hune h2
    unfold html_to_markdown
    rw [String.data_append]
    exact infixL_app_right _ h3
  rw [hmd]
  exact ⟨hlift t htdata htws (infixL_trans htB hbr),
         hlift href hhdata hhws (infixL_trans hhB hbr)⟩

/-- Witness for C9 at the spec's example body
`<body><a href="http://x.test">link</a></body>`. -/
theorem markdown_preserves_links_witness :
    InfixL "link".data "[link](http://x.test)\n\n".data
    ∧ InfixL "http://x.test".data "[link](http://x.test)\n\n".data :=
  markdown_preserves_links
    (.elem "body" [] (.elem "a" [("href", "http://x.test")] (.text "link" .nil) .nil) .nil)
    (.elem "body" [] (.elem "a" [("href", "http://x.test")] (.text "link" .nil) .nil) .nil)
    [("href", "http://x.test")] (.text "link" .nil)
    "link" "http://x.test" "[link](http://x.test)\n\n"
    (by decide)
    (InForest.inChild (InForest.here _))
    (by decide) (by decide) (by decide) (by decide) (by decide) (by decide)
    (by decide)

/-- Witness for C7 at a document whose body contains a script next to
ordinary text. -/
theorem clean_removes_scripts_witness :
    bannedFree (cleanForest (.elem "body" []
        (.text "keep" (.elem "script" [] (.text "alert(1)" .nil) .nil)) .nil)) = true
    ∧ collectTexts (cleanForest (.elem "body" []
        (.text "keep" (.elem "script" [] (.text "alert(1)" .nil) .nil)) .nil))
      = collectTextsOutside (.elem "body" []
          (.text "keep" (.elem "script" [] (.text "alert(1)" .nil) .nil)) .nil)
    ∧ List.Sublist (collectTexts (.elem "body" [] (.text "keep" .nil) .nil))
        (collectTextsOutside (.elem "body" []
          (.text "keep" (.elem "script" [] (.text "alert(1)" .nil) .nil)) .nil)) :=
  ⟨(clean_removes_scripts _).1, (clean_removes_scripts _).2.1,
   (clean_removes_scripts _).2.2 _ (by decide)⟩

end TkrSearxng
